import Mathlib

/-!
Shallow embedding of `sklearn_questions.py`: a brute-force k-nearest-neighbors
classifier (`KNearestNeighbors`) and a calendar-month cross-validation
splitter (`MonthlySplit`).

Machine floats are idealized as exact rationals.  Euclidean distances are
modelled through squared distances: the square root is strictly monotone, so
rankings and ties agree with the source's `pairwise_distances`.
-/

namespace SklearnQuestions

/-- First-occurrence deduplication: the distinct elements of `l` in the order
they are first encountered.  This is the key-insertion order of a Python
`collections.Counter` built by scanning `l`. -/
def dedupFirst {α : Type} [DecidableEq α] : List α → List α
  | [] => []
  | x :: xs => x :: (dedupFirst xs).filter (fun y => y ≠ x)

/-- Model of `most_common_label` (source lines 65-76): build
`Counter(array)` and return `counter.most_common(1)[0][0]` (`None` on an
empty array).  `Counter` iterates its keys in first-insertion order, and
`most_common(1)` reduces to Python `max` by count over those keys, which
replaces the running best only on a strictly greater count, so the earliest
key wins ties. -/
def most_common_label {α : Type} [DecidableEq α] (l : List α) : Option α :=
  match dedupFirst l with
  | [] => none
  | k :: ks =>
    some (ks.foldl (fun best c => if l.count best < l.count c then c else best) k)

/-- Typed error taxonomy of the classifier (spec sections 6-7):
`NotFittedError` from `check_is_fitted`, the `ValueError`s raised by the
shape validators and by `pairwise_distances`, and the `ValueError` of
`check_classification_targets`. -/
inductive KNNError
  | notFitted
  | shapeMismatch
  | invalidTarget
deriving DecidableEq, Repr

/-- The attributes written by a successful `fit`: training features `X_`,
training labels `y_`, the recorded feature width `n_features_in_` and the
sorted distinct classes `classes_`. -/
structure FittedState where
  X_ : List (List ℚ)
  y_ : List ℚ
  n_features_in_ : ℕ
  classes_ : List ℚ
deriving DecidableEq, Repr

/-- A `KNearestNeighbors` instance: the `n_neighbors` parameter and the
fitted attributes, present only after a successful `fit`. -/
structure KNearestNeighbors where
  n_neighbors : ℕ
  fitted : Option FittedState
deriving DecidableEq, Repr

/-- Model of `check_X_y`: the features must form a nonempty rectangular 2-d
matrix with at least one feature, and `y` must have one label per row. -/
def check_X_y (X : List (List ℚ)) (y : List ℚ) : Bool :=
  !X.isEmpty
    && X.all (fun r => r.length == (X.headD []).length)
    && decide (1 ≤ (X.headD []).length)
    && decide (y.length = X.length)

/-- Model of `check_classification_targets` on a float target: the target is
a classification target iff every value is integral; otherwise
`type_of_target` reports `continuous` and the check raises. -/
def check_classification_targets (y : List ℚ) : Bool :=
  y.all (fun v => v.den == 1)

/-- Insertion into an ascending duplicate-free list of rationals. -/
def insertSortedQ (v : ℚ) : List ℚ → List ℚ
  | [] => [v]
  | x :: xs =>
    if v < x then v :: x :: xs
    else if v = x then x :: xs
    else x :: insertSortedQ v xs

/-- Model of `np.unique`: the sorted list of distinct values. -/
def np_unique (y : List ℚ) : List ℚ :=
  y.foldl (fun acc v => insertSortedQ v acc) []

/-- Model of `KNearestNeighbors.fit` (source lines 85-106) as a state
transformer returning the new instance and the raised error, if any.
`check_X_y` runs first, then `check_classification_targets`; the attributes
`X_`, `y_`, `n_features_in_` and `classes_` are assigned only after both
checks pass, so a raising `fit` leaves the instance untouched. -/
def KNearestNeighbors.fit (m : KNearestNeighbors) (X : List (List ℚ)) (y : List ℚ) :
    KNearestNeighbors × Option KNNError :=
  if check_X_y X y then
    if check_classification_targets y then
      ({ m with fitted := some ⟨X, y, (X.headD []).length, np_unique y⟩ }, none)
    else (m, some .invalidTarget)
  else (m, some .shapeMismatch)

/-- Squared Euclidean distance between two feature rows.  Distance
comparisons in the source go through `pairwise_distances`; squaring is
strictly monotone on nonnegative reals, so this induces the same ranking and
the same ties. -/
def sqdist (a b : List ℚ) : ℚ :=
  ((a.zip b).map (fun p => (p.1 - p.2) * (p.1 - p.2))).sum

/-- Stable insertion of index `i` into a list of indices ordered by `key`:
`i` is placed after every index whose key is less than or equal to its own. -/
def insertIdx (key : ℕ → ℚ) (i : ℕ) : List ℕ → List ℕ
  | [] => [i]
  | j :: js => if key j ≤ key i then j :: insertIdx key i js else i :: j :: js

/-- Model of `np.argsort` on one row of the distance matrix: the indices
`0, ..., n-1` ordered by ascending key.  Equal keys are kept in ascending
index order here; numpy's default introsort guarantees that only for the
small segments (below its insertion-sort cutoff) relevant to every concrete
instance evaluated in this file, and leaves the tie order unspecified in
general. -/
def np_argsort (key : ℕ → ℚ) (n : ℕ) : List ℕ :=
  (List.range n).foldl (fun acc i => insertIdx key i acc) []

/-- Model of `check_array` on the query matrix: nonempty rectangular 2-d
numeric data with at least one feature. -/
def check_array (X : List (List ℚ)) : Bool :=
  !X.isEmpty
    && X.all (fun r => r.length == (X.headD []).length)
    && decide (1 ≤ (X.headD []).length)

/-- Model of `KNearestNeighbors.predict` (source lines 108-127):
`check_is_fitted`, then `check_array`, then `pairwise_distances` — which
raises a `ValueError` when the feature widths of the query and training
matrices differ — then, per query row, the labels of the first `n_neighbors`
entries of the distance argsort are voted with `most_common_label`. -/
def KNearestNeighbors.predict (m : KNearestNeighbors) (X : List (List ℚ)) :
    Except KNNError (List (Option ℚ)) :=
  match m.fitted with
  | none => .error .notFitted
  | some f =>
    if check_array X then
      if (X.headD []).length = (f.X_.headD []).length then
        .ok (X.map (fun q =>
          let dists := f.X_.map (fun t => sqdist q t)
          let closest := (np_argsort (fun j => dists.getD j 0) dists.length).take m.n_neighbors
          most_common_label (closest.map (fun j => f.y_.getD j 0))))
      else .error .shapeMismatch
    else .error .shapeMismatch

/-- Model of `KNearestNeighbors.score` (source lines 129-147):
`check_classification_targets` on `y`, then predictions via `predict`
(propagating its errors), then the mean of the elementwise equality mask
`y == y_pred`. -/
def KNearestNeighbors.score (m : KNearestNeighbors) (X : List (List ℚ)) (y : List ℚ) :
    Except KNNError ℚ :=
  if check_classification_targets y then
    match m.predict X with
    | .error e => .error e
    | .ok preds =>
      .ok ((((y.zip preds).countP (fun p => decide (p.2 = some p.1))) : ℚ) / (y.length : ℚ))
  else .error .invalidTarget

/-- The non-integral rational one half, written in lowest terms so that the
kernel can evaluate its denominator directly; it models a continuous float
label such as `0.5`. -/
def oneHalf : ℚ := ⟨1, 2, by decide, Nat.coprime_one_left 2⟩

/-- A calendar date: the part of a pandas `Timestamp` the splitter reads
(`.year` and `.month`), plus the day so that distinct timestamps inside one
month exist in the model. -/
structure Date where
  year : ℤ
  month : ℤ
  day : ℤ
deriving DecidableEq, Repr

/-- The `(year, month)` pair extracted from one timestamp. -/
def Date.ym (d : Date) : ℤ × ℤ := (d.year, d.month)

/-- Order of the underlying timestamps (lexicographic on year, month, day). -/
def Date.ble (a b : Date) : Bool :=
  decide (a.year < b.year ∨ (a.year = b.year ∧
    (a.month < b.month ∨ (a.month = b.month ∧ a.day ≤ b.day))))

/-- An index label: a timestamp for a `DatetimeIndex`, an integer for a
plain `RangeIndex`. -/
inductive IdxLabel
  | date (d : Date)
  | num (n : ℤ)
deriving DecidableEq, Repr

/-- Comparison of index labels; labels of different kinds never occur in one
index and are treated as incomparable. -/
def IdxLabel.ble : IdxLabel → IdxLabel → Bool
  | .date a, .date b => a.ble b
  | .num a, .num b => decide (a ≤ b)
  | _, _ => false

/-- The index of a DataFrame: a `DatetimeIndex` (timezone-naive or aware) or
a plain `RangeIndex`. -/
inductive PdIndex
  | datetime (tz : Option String) (dates : List Date)
  | rangeIdx (n : ℕ)
deriving DecidableEq, Repr

/-- The labels held by the index. -/
def PdIndex.labels : PdIndex → List IdxLabel
  | .datetime _ ds => ds.map .date
  | .rangeIdx n => (List.range n).map (fun i => .num i)

/-- The test `isinstance(X.index, pd.DatetimeIndex)`; timezone-aware
`DatetimeIndex` instances pass it. -/
def PdIndex.isDatetimeIndex : PdIndex → Bool
  | .datetime _ _ => true
  | .rangeIdx _ => false

/-- The pandas column dtypes the splitter's check distinguishes:
`datetime64[ns]`, a timezone-aware `datetime64[ns, tz]`, `object` (e.g.
plain text), and a numeric dtype. -/
inductive Dtype
  | datetime64ns
  | datetime64tz (tz : String)
  | objectDtype
  | int64
deriving DecidableEq, Repr

/-- A column: its dtype and, for datetime-typed columns, its timestamps.
The splitter reads cell values only after its dtype check has passed, so
the cells of non-datetime columns never matter and are not modelled. -/
structure Column where
  dtype : Dtype
  dates : List Date
deriving DecidableEq, Repr

/-- A pandas DataFrame as the splitter sees it: an index and named columns. -/
structure Table where
  index : PdIndex
  cols : List (String × Column)
deriving DecidableEq, Repr

/-- Column lookup `X[c]`; `none` models the `KeyError` of a missing column. -/
def Table.col (X : Table) (c : String) : Option Column :=
  (X.cols.find? (fun p => p.1 == c)).map (fun p => p.2)

/-- Result of `pandas.Index.get_loc`: an integer position when the key
matches exactly one label, a slice when it matches several labels of a
monotonic index, a boolean mask otherwise; `notFound` stands for the
`KeyError` raised when the key is absent. -/
inductive GetLocResult
  | loc (i : ℕ)
  | sliceRes (start stop : ℕ)
  | boolMask (m : List Bool)
  | notFound
deriving DecidableEq, Repr

/-- `Index.is_monotonic_increasing`. -/
def isMonotonicB : List IdxLabel → Bool
  | [] => true
  | [_] => true
  | a :: b :: rest => a.ble b && isMonotonicB (b :: rest)

/-- Model of `pandas.Index.get_loc`. -/
def get_loc (labels : List IdxLabel) (key : IdxLabel) : GetLocResult :=
  if labels.count key = 0 then .notFound
  else if labels.count key = 1 then .loc (labels.indexOf key)
  else if isMonotonicB labels then
    .sliceRes (labels.indexOf key) (labels.length - labels.reverse.indexOf key)
  else .boolMask (labels.map (fun l => l == key))

/-- Errors raised by `MonthlySplit.split`: the `ValueError` for a
non-datetime time source, the `KeyError` for a missing time column, and the
`AssertionError` of the internal count invariant. -/
inductive SplitError
  | notDatetime
  | keyMissing
  | assertionFailed
deriving DecidableEq, Repr

/-- A `(year, month)` key. -/
abbrev YM := ℤ × ℤ

/-- Strict lexicographic order on `(year, month)` keys: the order Python's
`sorted` arranges tuples in, which is chronological here. -/
def ymLt (a b : YM) : Bool :=
  decide (a.1 < b.1 ∨ (a.1 = b.1 ∧ a.2 < b.2))

/-- Insertion into an ascending duplicate-free list of keys. -/
def insertYM (v : YM) : List YM → List YM
  | [] => [v]
  | x :: xs =>
    if ymLt v x then v :: x :: xs
    else if v = x then x :: xs
    else x :: insertYM v xs

/-- Model of `sorted(set(keys))`: the distinct keys in ascending order. -/
def sortedUnique (keys : List YM) : List YM :=
  keys.foldl (fun acc v => insertYM v acc) []

/-- The per-row timestamps that `get_n_splits` iterates over (`X.index`, or
the named column): available whenever the stored values are dates; reading
`.year` of a non-date value raises, modelled as `none`. -/
def timeValues (time_col : String) (X : Table) : Option (List Date) :=
  if time_col = "index" then
    match X.index with
    | .datetime _ ds => some ds
    | .rangeIdx _ => none
  else
    match X.col time_col with
    | some c =>
      match c.dtype with
      | .datetime64ns => some c.dates
      | .datetime64tz _ => some c.dates
      | _ => none
    | none => none

/-- Model of `MonthlySplit.get_n_splits` (source lines 169-194): the number
of distinct `(year, month)` pairs among the row timestamps, minus one. -/
def MonthlySplit.get_n_splits (time_col : String) (X : Table) : Option ℤ :=
  (timeValues time_col X).map (fun ds => ((ds.map Date.ym).dedup.length : ℤ) - 1)

/-- The index labels of the rows whose key equals `m`, in table order: the
model of `X[df == m].index.tolist()`. -/
def monthRows (labels : List IdxLabel) (keys : List YM) (m : YM) : List IdxLabel :=
  ((labels.zip keys).filter (fun p => decide (p.2 = m))).map Prod.fst

/-- One side of a fold: `get_loc` applied to each selected row label. -/
def foldSide (labels : List IdxLabel) (keys : List YM) (m : YM) : List GetLocResult :=
  (monthRows labels keys m).map (get_loc labels)

/-- The validation prologue of `MonthlySplit.split` (source lines 216-224):
the index path requires `isinstance(X.index, pd.DatetimeIndex)`, the column
path requires the column to exist with dtype exactly `datetime64[ns]`;
otherwise the `ValueError` (or `KeyError` for a missing column) is raised.
On success it returns the per-row `(year, month)` keys. -/
def splitValidate (time_col : String) (X : Table) : Except SplitError (List YM) :=
  if time_col = "index" then
    match X.index with
    | .datetime _ ds => .ok (ds.map Date.ym)
    | .rangeIdx _ => .error .notDatetime
  else
    match X.col time_col with
    | some c =>
      if c.dtype = .datetime64ns then .ok (c.dates.map Date.ym)
      else .error .notDatetime
    | none => .error .keyMissing

/-- Model of `MonthlySplit.split` (source lines 196-239): validate the time
source and extract the per-row `(year, month)` keys, compute the ascending
distinct keys, recompute `n_splits` through `get_n_splits`, check the
`assert`, and emit for every adjacent pair of distinct months the
`get_loc`-positions of the rows of the first and of the second month.  The
`getD 0` below is an unreachable total-function filler: once validation has
passed, `get_n_splits` is always `some`. -/
def MonthlySplit.split (time_col : String) (X : Table) :
    Except SplitError (List (List GetLocResult × List GetLocResult)) :=
  match splitValidate time_col X with
  | .error e => .error e
  | .ok keys =>
    let months := sortedUnique keys
    let ns : ℤ := (MonthlySplit.get_n_splits time_col X).getD 0
    if (months.length : ℤ) = ns + 1 then
      .ok ((List.range ns.toNat).map (fun i =>
        (foldSide X.index.labels keys (months.getD i (0, 0)),
         foldSide X.index.labels keys (months.getD (i + 1) (0, 0)))))
    else .error .assertionFailed

/-- Written from the spec, for comparison with the implementation: the
positional row indices (counted from `start`) of the entries of `keys` equal
to `m`, in the table's original row order. -/
def specPositionsFrom (keys : List YM) (m : YM) (start : ℕ) : List ℕ :=
  match keys with
  | [] => []
  | k :: ks =>
    if k = m then start :: specPositionsFrom ks m (start + 1)
    else specPositionsFrom ks m (start + 1)

/-- Written from the spec: the positional indices of the rows whose key
equals `m`, in original row order. -/
def specPositions (keys : List YM) (m : YM) : List ℕ :=
  specPositionsFrom keys m 0

/-- A table with a duplicated timestamp in its `DatetimeIndex`: two rows on
2021-01-01 and one on 2021-02-01. -/
def dupIndexTable : Table :=
  ⟨.datetime none [⟨2021, 1, 1⟩, ⟨2021, 1, 1⟩, ⟨2021, 2, 1⟩], []⟩

/-- A table with three pairwise-distinct timestamps spanning January and
February 2021. -/
def distinctIndexTable : Table :=
  ⟨.datetime none [⟨2021, 1, 1⟩, ⟨2021, 1, 2⟩, ⟨2021, 2, 1⟩], []⟩

/-- A table whose two rows both fall in January 2021. -/
def singleMonthTable : Table :=
  ⟨.datetime none [⟨2021, 1, 1⟩, ⟨2021, 1, 2⟩], []⟩

/-- A table whose time column holds plain text (dtype `object`). -/
def textColTable : Table :=
  ⟨.rangeIdx 2, [("date", ⟨.objectDtype, []⟩)]⟩

/-- A table whose time column has dtype exactly `datetime64[ns]`. -/
def nsColTable : Table :=
  ⟨.rangeIdx 1, [("date", ⟨.datetime64ns, [⟨2021, 1, 1⟩]⟩)]⟩

/-- A table whose time column is timezone-aware (`datetime64[ns, UTC]`). -/
def tzColTable : Table :=
  ⟨.rangeIdx 1, [("date", ⟨.datetime64tz "UTC", [⟨2021, 1, 1⟩]⟩)]⟩

/-- A table with a timezone-aware `DatetimeIndex`. -/
def tzIndexTable : Table :=
  ⟨.datetime (some "UTC") [⟨2021, 1, 1⟩], []⟩

/-! ### Properties of `dedupFirst` and `most_common_label` -/

theorem mem_dedupFirst {α : Type} [DecidableEq α] (l : List α) (x : α) :
    x ∈ dedupFirst l ↔ x ∈ l := by
  induction l with
  | nil => simp [dedupFirst]
  | cons a as ih =>
    simp only [dedupFirst, List.mem_cons, List.mem_filter, ih, decide_eq_true_eq]
    by_cases hx : x = a <;> simp [hx]

theorem dedupFirst_pairwise {α : Type} [DecidableEq α] (l : List α) :
    (dedupFirst l).Pairwise (fun a b => l.indexOf a < l.indexOf b) := by
  induction l with
  | nil => simp [dedupFirst]
  | cons a as ih =>
    rw [dedupFirst]
    refine List.Pairwise.cons ?_ ?_
    · intro b hb
      have hbf := List.mem_filter.mp hb
      have hbne : b ≠ a := by simpa using hbf.2
      rw [List.indexOf_cons_self, List.indexOf_cons_ne _ (Ne.symm hbne)]
      exact Nat.succ_pos _
    · refine (ih.filter _).imp_of_mem ?_
      intro x y hx hy hxy
      have hxne : x ≠ a := by simpa using (List.mem_filter.mp hx).2
      have hyne : y ≠ a := by simpa using (List.mem_filter.mp hy).2
      rw [List.indexOf_cons_ne _ (Ne.symm hxne), List.indexOf_cons_ne _ (Ne.symm hyne)]
      exact Nat.succ_lt_succ hxy

theorem foldl_best_spec {α : Type} [DecidableEq α] (l : List α) (ks : List α) :
    ∀ b : α, (b :: ks).Pairwise (fun x y => l.indexOf x < l.indexOf y) →
      ks.foldl (fun best c => if l.count best < l.count c then c else best) b ∈ b :: ks
        ∧ (∀ x ∈ b :: ks, l.count x ≤
            l.count (ks.foldl (fun best c => if l.count best < l.count c then c else best) b))
        ∧ (∀ x ∈ b :: ks, l.count x =
            l.count (ks.foldl (fun best c => if l.count best < l.count c then c else best) b) →
            l.indexOf (ks.foldl (fun best c => if l.count best < l.count c then c else best) b)
              ≤ l.indexOf x) := by
  induction ks with
  | nil =>
    intro b _
    refine ⟨by simp, ?_, ?_⟩ <;> · intro x hx; simp at hx; simp [hx]
  | cons c ks ih =>
    intro b hpw
    obtain ⟨hb, hck⟩ := List.pairwise_cons.mp hpw
    obtain ⟨hc, hks⟩ := List.pairwise_cons.mp hck
    have hfold : (c :: ks).foldl (fun best x => if l.count best < l.count x then x else best) b
        = ks.foldl (fun best x => if l.count best < l.count x then x else best)
            (if l.count b < l.count c then c else b) := by
      simp [List.foldl_cons]
    by_cases hbc : l.count b < l.count c
    · have hpw' : (c :: ks).Pairwise (fun x y => l.indexOf x < l.indexOf y) := hck
      obtain ⟨hmem, hcount, htie⟩ := ih c hpw'
      rw [hfold, if_pos hbc]
      refine ⟨?_, ?_, ?_⟩
      · rcases List.mem_cons.mp hmem with h | h
        · rw [h]; exact List.mem_cons_of_mem _ (List.mem_cons_self _ _)
        · exact List.mem_cons_of_mem _ (List.mem_cons_of_mem _ h)
      · intro x hx
        rcases List.mem_cons.mp hx with rfl | hx'
        · exact le_trans (le_of_lt hbc) (hcount c (List.mem_cons_self _ _))
        · exact hcount x hx'
      · intro x hx hcx
        rcases List.mem_cons.mp hx with rfl | hx'
        · exact absurd (lt_of_lt_of_le hbc (hcount c (List.mem_cons_self _ _)))
            (by rw [hcx]; exact lt_irrefl _)
        · exact htie x hx' hcx
    · have hb' : ∀ y ∈ ks, l.indexOf b < l.indexOf y := fun y hy =>
        hb y (List.mem_cons_of_mem _ hy)
      have hpw' : (b :: ks).Pairwise (fun x y => l.indexOf x < l.indexOf y) :=
        List.pairwise_cons.mpr ⟨hb', hks⟩
      obtain ⟨hmem, hcount, htie⟩ := ih b hpw'
      rw [hfold, if_neg hbc]
      refine ⟨?_, ?_, ?_⟩
      · rcases List.mem_cons.mp hmem with h | h
        · rw [h]; exact List.mem_cons_self _ _
        · exact List.mem_cons_of_mem _ (List.mem_cons_of_mem _ h)
      · intro x hx
        rcases List.mem_cons.mp hx with rfl | hx'
        · exact hcount x (List.mem_cons_self _ _)
        · rcases List.mem_cons.mp hx' with rfl | hx''
          · exact le_trans (not_lt.mp hbc) (hcount b (List.mem_cons_self _ _))
          · exact hcount x (List.mem_cons_of_mem _ hx'')
      · intro x hx hcx
        rcases List.mem_cons.mp hx with rfl | hx'
        · exact htie x (List.mem_cons_self _ _) hcx
        · rcases List.mem_cons.mp hx' with rfl | hx''
          · have h1 : l.count b ≤
                l.count (ks.foldl (fun best y => if l.count best < l.count y then y else best) b) :=
              hcount b (List.mem_cons_self _ _)
            have h2 : l.count b =
                l.count (ks.foldl (fun best y => if l.count best < l.count y then y else best) b) :=
              le_antisymm h1 (by rw [← hcx]; exact not_lt.mp hbc)
            exact le_trans (htie b (List.mem_cons_self _ _) h2)
              (le_of_lt (hb _ (List.mem_cons_self _ _)))
          · exact htie x (List.mem_cons_of_mem _ hx'') hcx

/-- Claim C4: when labels tie for the highest frequency among the voted
labels, `most_common_label` returns the label encountered first in counting
order — the returned label has maximal count, and among all labels of
maximal count it is the one with the smallest first-occurrence position.
Determinism is immediate since the embedding is a pure function of the
label list. -/
theorem C4_most_common_first_encountered {α : Type} [DecidableEq α]
    (l : List α) (h : l ≠ []) :
    ∃ m, most_common_label l = some m ∧ m ∈ l ∧
      (∀ x ∈ l, l.count x ≤ l.count m) ∧
      (∀ x ∈ l, l.count x = l.count m → l.indexOf m ≤ l.indexOf x) := by
  rcases l with _ | ⟨a, as⟩
  · exact absurd rfl h
  have hpw := dedupFirst_pairwise (a :: as)
  rw [dedupFirst] at hpw
  obtain ⟨hmem, hcount, htie⟩ := foldl_best_spec (a :: as) ((dedupFirst as).filter (fun y => y ≠ a)) a hpw
  refine ⟨((dedupFirst as).filter (fun y => y ≠ a)).foldl
      (fun best c => if (a :: as).count best < (a :: as).count c then c else best) a,
    ?_, ?_, ?_, ?_⟩
  · rfl
  · have : ((dedupFirst as).filter (fun y => y ≠ a)).foldl
        (fun best c => if (a :: as).count best < (a :: as).count c then c else best) a
        ∈ dedupFirst (a :: as) := by rw [dedupFirst]; exact hmem
    exact (mem_dedupFirst _ _).mp this
  · intro x hx
    have hx' : x ∈ dedupFirst (a :: as) := (mem_dedupFirst _ _).mpr hx
    rw [dedupFirst] at hx'
    exact hcount x hx'
  · intro x hx hcx
    have hx' : x ∈ dedupFirst (a :: as) := (mem_dedupFirst _ _).mpr hx
    rw [dedupFirst] at hx'
    exact htie x hx' hcx

/-- Witness for C4: on the label list `[3, 5, 5, 3]` both labels occur
twice; the characterization applies and the returned label is `3`, the one
encountered first. -/
theorem C4_witness :
    (([3, 5, 5, 3] : List ℚ) ≠ [] ∧
      ∃ m, most_common_label ([3, 5, 5, 3] : List ℚ) = some m ∧ m ∈ [(3 : ℚ), 5, 5, 3] ∧
        (∀ x ∈ [(3 : ℚ), 5, 5, 3], List.count x [(3 : ℚ), 5, 5, 3] ≤ List.count m [(3 : ℚ), 5, 5, 3]) ∧
        (∀ x ∈ [(3 : ℚ), 5, 5, 3], List.count x [(3 : ℚ), 5, 5, 3] = List.count m [(3 : ℚ), 5, 5, 3] →
          List.indexOf m [(3 : ℚ), 5, 5, 3] ≤ List.indexOf x [(3 : ℚ), 5, 5, 3]))
      ∧ most_common_label ([3, 5, 5, 3] : List ℚ) = some 3 :=
  ⟨⟨by decide, C4_most_common_first_encountered [3, 5, 5, 3] (by decide)⟩, by decide⟩

/-! ### Error behavior of `fit` and `predict` -/

/-- Claim C8: `fit` is atomic on error.  Shape validation (`check_X_y`) and
the classification-target check run before any attribute assignment, so a
malformed shape raises the shape error, a continuous target raises the
target error, and in both cases the instance is returned unchanged. -/
theorem C8_fit_atomic (m : KNearestNeighbors) (X : List (List ℚ)) (y : List ℚ) :
    (check_X_y X y = false →
      KNearestNeighbors.fit m X y = (m, some KNNError.shapeMismatch)) ∧
    (check_X_y X y = true → check_classification_targets y = false →
      KNearestNeighbors.fit m X y = (m, some KNNError.invalidTarget)) ∧
    ((KNearestNeighbors.fit m X y).2 ≠ none → (KNearestNeighbors.fit m X y).1 = m) := by
  refine ⟨?_, ?_, ?_⟩
  · intro h; simp [KNearestNeighbors.fit, h]
  · intro h1 h2; simp [KNearestNeighbors.fit, h1, h2]
  · intro herr
    by_cases h1 : check_X_y X y
    · by_cases h2 : check_classification_targets y
      · exact absurd (by simp [KNearestNeighbors.fit, h1, h2]) herr
      · simp [KNearestNeighbors.fit, h1, h2]
    · simp [KNearestNeighbors.fit, h1]

/-- Witness for C8: `fit` on a ragged matrix raises the shape error, and
`fit` with a fractional label raises the target error; both leave the
instance unchanged. -/
theorem C8_witness :
    (check_X_y [[0], [1, 2]] [0, 1] = false ∧
      KNearestNeighbors.fit ⟨1, none⟩ [[0], [1, 2]] [0, 1]
        = (⟨1, none⟩, some KNNError.shapeMismatch)) ∧
    (check_X_y [[0], [1]] [0, oneHalf] = true ∧
      check_classification_targets [0, oneHalf] = false ∧
      KNearestNeighbors.fit ⟨1, none⟩ [[0], [1]] [0, oneHalf]
        = (⟨1, none⟩, some KNNError.invalidTarget)) :=
  ⟨⟨by decide, (C8_fit_atomic ⟨1, none⟩ [[0], [1, 2]] [0, 1]).1 (by decide)⟩,
   ⟨by decide, by decide,
    (C8_fit_atomic ⟨1, none⟩ [[0], [1]] [0, oneHalf]).2.1 (by decide) (by decide)⟩⟩

/-- Claim C6: `predict` on a never-fitted instance raises the not-fitted
error, and `predict` after a successful `fit` with a query whose feature
width differs from the fitted width raises the shape error; in both cases an
error is the entire result, so no per-row prediction is returned. -/
theorem C6_predict_errors :
    (∀ (m : KNearestNeighbors) (X : List (List ℚ)), m.fitted = none →
      m.predict X = .error KNNError.notFitted) ∧
    (∀ (m₀ : KNearestNeighbors) (X₀ : List (List ℚ)) (y₀ : List ℚ)
      (m : KNearestNeighbors) (X : List (List ℚ)),
      KNearestNeighbors.fit m₀ X₀ y₀ = (m, none) →
      (X.headD []).length ≠ (X₀.headD []).length →
      m.predict X = .error KNNError.shapeMismatch) := by
  constructor
  · intro m X hm
    simp [KNearestNeighbors.predict, hm]
  · intro m₀ X₀ y₀ m X hfit hW
    by_cases h1 : check_X_y X₀ y₀
    · by_cases h2 : check_classification_targets y₀
      · have hm : { m₀ with
            fitted := some ⟨X₀, y₀, (X₀.headD []).length, np_unique y₀⟩ } = m := by
          have h := hfit
          simp only [KNearestNeighbors.fit, h1, h2, if_true, Prod.mk.injEq, and_true] at h
          exact h
        subst hm
        by_cases h3 : check_array X
        · simp [KNearestNeighbors.predict, h3]
          simpa using hW
        · simp [KNearestNeighbors.predict, h3]
      · simp [KNearestNeighbors.fit, h1, h2] at hfit
    · simp [KNearestNeighbors.fit, h1] at hfit

/-- Witness for C6: an unfitted instance errors on `predict`, and an
instance fitted on one-feature data errors on a two-feature query. -/
theorem C6_witness :
    ((⟨1, none⟩ : KNearestNeighbors).fitted = none ∧
      KNearestNeighbors.predict ⟨1, none⟩ [[0]] = .error KNNError.notFitted) ∧
    (KNearestNeighbors.fit ⟨1, none⟩ [[0], [1]] [0, 1]
        = (⟨1, some ⟨[[0], [1]], [0, 1], 1, [0, 1]⟩⟩, none) ∧
      (([[0, 5]] : List (List ℚ)).headD []).length ≠ (([[0], [1]] : List (List ℚ)).headD []).length ∧
      KNearestNeighbors.predict ⟨1, some ⟨[[0], [1]], [0, 1], 1, [0, 1]⟩⟩ [[0, 5]]
        = .error KNNError.shapeMismatch) :=
  ⟨⟨rfl, C6_predict_errors.1 ⟨1, none⟩ [[0]] rfl⟩,
   ⟨by rfl, by decide,
    C6_predict_errors.2 ⟨1, none⟩ [[0], [1]] [0, 1]
      ⟨1, some ⟨[[0], [1]], [0, 1], 1, [0, 1]⟩⟩ [[0, 5]] (by rfl) (by decide)⟩⟩

/-! ### Distance and argsort machinery -/

theorem sqdist_self (a : List ℚ) : sqdist a a = 0 := by
  induction a with
  | nil => rfl
  | cons x xs ih =>
    have h : sqdist (x :: xs) (x :: xs) = (x - x) * (x - x) + sqdist xs xs := by
      simp [sqdist]
    rw [h, ih]; ring

theorem sqdist_nonneg (a b : List ℚ) : 0 ≤ sqdist a b := by
  refine List.sum_nonneg ?_
  intro x hx
  obtain ⟨p, _, rfl⟩ := List.mem_map.mp hx
  exact mul_self_nonneg _

theorem sqdist_pos (a b : List ℚ) (hlen : a.length = b.length) (hne : a ≠ b) :
    0 < sqdist a b := by
  induction a generalizing b with
  | nil =>
    cases b with
    | nil => exact absurd rfl hne
    | cons y ys => simp at hlen
  | cons x xs ih =>
    cases b with
    | nil => simp at hlen
    | cons y ys =>
      have hsq : sqdist (x :: xs) (y :: ys) = (x - y) * (x - y) + sqdist xs ys := by
        simp [sqdist]
      rw [hsq]
      by_cases hxy : x = y
      · subst hxy
        have hne' : xs ≠ ys := fun h => hne (by rw [h])
        have h3 := ih ys (by simpa using hlen) hne'
        simpa using h3
      · have h1 : 0 < (x - y) * (x - y) :=
          mul_self_pos.mpr (sub_ne_zero.mpr hxy)
        have h2 : 0 ≤ sqdist xs ys := sqdist_nonneg xs ys
        linarith

theorem mem_insertIdx (key : ℕ → ℚ) (i : ℕ) (acc : List ℕ) (x : ℕ) :
    x ∈ insertIdx key i acc ↔ x = i ∨ x ∈ acc := by
  induction acc with
  | nil => simp [insertIdx]
  | cons j js ih =>
    by_cases h : key j ≤ key i
    · simp only [insertIdx, if_pos h, List.mem_cons, ih]; tauto
    · simp only [insertIdx, if_neg h, List.mem_cons]

theorem insertIdx_pairwise (key : ℕ → ℚ) (i : ℕ) (acc : List ℕ)
    (h : acc.Pairwise (fun a b => key a ≤ key b)) :
    (insertIdx key i acc).Pairwise (fun a b => key a ≤ key b) := by
  induction acc with
  | nil => simp [insertIdx]
  | cons j js ih =>
    obtain ⟨hj, hjs⟩ := List.pairwise_cons.mp h
    by_cases hle : key j ≤ key i
    · rw [insertIdx, if_pos hle]
      refine List.pairwise_cons.mpr ⟨?_, ih hjs⟩
      intro b hb
      rcases (mem_insertIdx key i js b).mp hb with rfl | hb'
      · exact hle
      · exact hj b hb'
    · rw [insertIdx, if_neg hle]
      refine List.pairwise_cons.mpr ⟨?_, h⟩
      intro b hb
      rcases List.mem_cons.mp hb with rfl | hb'
      · exact le_of_not_le hle
      · exact le_trans (le_of_not_le hle) (hj b hb')

theorem mem_np_argsort (key : ℕ → ℚ) (n : ℕ) (x : ℕ) :
    x ∈ np_argsort key n ↔ x < n := by
  have main : ∀ (l : List ℕ) (acc : List ℕ) (x : ℕ),
      x ∈ l.foldl (fun acc i => insertIdx key i acc) acc ↔ x ∈ acc ∨ x ∈ l := by
    intro l
    induction l with
    | nil => simp
    | cons i is ih =>
      intro acc x
      simp only [List.foldl_cons, ih, mem_insertIdx, List.mem_cons]
      tauto
  rw [np_argsort, main]
  simp [List.mem_range]

theorem np_argsort_pairwise (key : ℕ → ℚ) (n : ℕ) :
    (np_argsort key n).Pairwise (fun a b => key a ≤ key b) := by
  have main : ∀ (l : List ℕ) (acc : List ℕ),
      acc.Pairwise (fun a b => key a ≤ key b) →
      (l.foldl (fun acc i => insertIdx key i acc) acc).Pairwise (fun a b => key a ≤ key b) := by
    intro l
    induction l with
    | nil => intro acc h; exact h
    | cons i is ih => intro acc h; exact ih _ (insertIdx_pairwise key i acc h)
  exact main _ [] (by simp)

theorem np_argsort_eq_cons_of_min (key : ℕ → ℚ) (n : ℕ) (i : ℕ)
    (hi : i < n) (hmin : ∀ j, j < n → j ≠ i → key i < key j) :
    ∃ t, np_argsort key n = i :: t := by
  obtain ⟨h, t, heq⟩ : ∃ h t, np_argsort key n = h :: t := by
    cases hc : np_argsort key n with
    | nil => exact absurd ((mem_np_argsort key n i).mpr hi) (by rw [hc]; simp)
    | cons h t => exact ⟨h, t, rfl⟩
  refine ⟨t, ?_⟩
  have hpw := np_argsort_pairwise key n
  rw [heq] at hpw
  obtain ⟨hhd, _⟩ := List.pairwise_cons.mp hpw
  have hhn : h < n := (mem_np_argsort key n h).mp (by rw [heq]; simp)
  by_cases hhi : h = i
  · rw [heq, hhi]
  · exfalso
    have himem : i ∈ h :: t := by rw [← heq]; exact (mem_np_argsort key n i).mpr hi
    rcases List.mem_cons.mp himem with h1 | h1
    · exact hhi h1.symm
    · exact absurd (hmin h hhn hhi) (not_lt.mpr (hhd i h1))

theorem most_common_label_singleton {α : Type} [DecidableEq α] (c : α) :
    most_common_label [c] = some c := rfl

theorem countP_zip_full {α β : Type} (p : α → β → Prop) [∀ a b, Decidable (p a b)] :
    ∀ (ys : List α) (zs : List β), ys.length = zs.length →
      (∀ i (h1 : i < ys.length) (h2 : i < zs.length), p (ys.get ⟨i, h1⟩) (zs.get ⟨i, h2⟩)) →
      (ys.zip zs).countP (fun q => decide (p q.1 q.2)) = ys.length := by
  intro ys
  induction ys with
  | nil => intro zs _ _; simp
  | cons y ys ih =>
    intro zs hlen hall
    cases zs with
    | nil => simp at hlen
    | cons z zs =>
      have h0 : p y z := hall 0 (by simp) (by simp)
      have hrec := ih zs (by simpa using hlen)
        (fun i h1 h2 => hall (i + 1) (Nat.succ_lt_succ h1) (Nat.succ_lt_succ h2))
      simp [List.zip_cons_cons, List.countP_cons, hrec, h0]

theorem getD_map_of_lt {α β : Type} (f : α → β) (l : List α) (i : ℕ)
    (h : i < l.length) (d : β) (d' : α) :
    (l.map f).getD i d = f (l.getD i d') := by
  induction l generalizing i with
  | nil => simp at h
  | cons x xs ih =>
    cases i with
    | zero => rfl
    | succ n => exact ih n (Nat.lt_of_succ_lt_succ h)

theorem predict_ok (f : FittedState) (k : ℕ) (X : List (List ℚ))
    (h1 : check_array X = true) (h2 : (X.headD []).length = (f.X_.headD []).length) :
    KNearestNeighbors.predict ⟨k, some f⟩ X = .ok (X.map (fun q =>
      most_common_label (((np_argsort (fun j => (f.X_.map (fun t => sqdist q t)).getD j 0)
        (f.X_.map (fun t => sqdist q t)).length).take k).map (fun j => f.y_.getD j 0)))) := by
  simp only [KNearestNeighbors.predict, h1, h2, eq_self_iff_true, if_true]

theorem predict_row_self (X : List (List ℚ)) (y : List ℚ)
    (hrect : ∀ r ∈ X, r.length = (X.headD []).length)
    (hnd : X.Nodup) (i : ℕ) (hi : i < X.length) :
    most_common_label
      (((np_argsort (fun j => (X.map (fun t => sqdist (X.get ⟨i, hi⟩) t)).getD j 0)
          (X.map (fun t => sqdist (X.get ⟨i, hi⟩) t)).length).take 1).map
        (fun j => y.getD j 0)) = some (y.getD i 0) := by
  have hlenmap : (X.map (fun t => sqdist (X.get ⟨i, hi⟩) t)).length = X.length := by
    simp
  have hkey : ∀ (j : ℕ) (hj : j < X.length),
      (X.map (fun t => sqdist (X.get ⟨i, hi⟩) t)).getD j 0
        = sqdist (X.get ⟨i, hi⟩) (X.get ⟨j, hj⟩) := by
    intro j hj
    rw [getD_map_of_lt (fun t => sqdist (X.get ⟨i, hi⟩) t) X j hj 0 []]
    rw [List.getD_eq_getElem X [] hj]
    rfl
  have hmin : ∀ j, j < (X.map (fun t => sqdist (X.get ⟨i, hi⟩) t)).length → j ≠ i →
      (X.map (fun t => sqdist (X.get ⟨i, hi⟩) t)).getD i 0
        < (X.map (fun t => sqdist (X.get ⟨i, hi⟩) t)).getD j 0 := by
    intro j hj hne
    have hj' : j < X.length := by rw [hlenmap] at hj; exact hj
    rw [hkey i hi, hkey j hj', sqdist_self]
    apply sqdist_pos
    · rw [hrect _ (X.get_mem i hi), hrect _ (X.get_mem j hj')]
    · intro hcontra
      have hfin := List.nodup_iff_injective_get.mp hnd hcontra
      exact hne (by simpa using hfin.symm)
  obtain ⟨t, ht⟩ := np_argsort_eq_cons_of_min
    (fun j => (X.map (fun t => sqdist (X.get ⟨i, hi⟩) t)).getD j 0)
    ((X.map (fun t => sqdist (X.get ⟨i, hi⟩) t)).length) i
    (by rw [hlenmap]; exact hi) hmin
  rw [ht]
  simp [most_common_label_singleton]

/-- Claim C5 (amended): for `n_neighbors = 1` and pairwise-distinct training
feature rows, `score` on the training data itself returns exactly `1`: each
point is then its own unique nearest neighbor. -/
theorem C5_score_one_of_distinct_rows (X : List (List ℚ)) (y : List ℚ)
    (hXy : check_X_y X y = true) (hy : check_classification_targets y = true)
    (hnd : X.Nodup) :
    ((KNearestNeighbors.fit ⟨1, none⟩ X y).1).score X y = .ok 1 := by
  have hsplit := hXy
  simp only [check_X_y, Bool.and_eq_true, decide_eq_true_eq] at hsplit
  obtain ⟨⟨⟨hne, hall⟩, hw⟩, hlen⟩ := hsplit
  have hrect : ∀ r ∈ X, r.length = (X.headD []).length := by
    intro r hr
    have h := List.all_eq_true.mp hall r hr
    simpa using h
  have harr : check_array X = true := by
    simp only [check_array, Bool.and_eq_true, decide_eq_true_eq]
    exact ⟨⟨hne, hall⟩, hw⟩
  have hfit : (KNearestNeighbors.fit ⟨1, none⟩ X y).1
      = ⟨1, some ⟨X, y, (X.headD []).length, np_unique y⟩⟩ := by
    simp only [KNearestNeighbors.fit, hXy, hy, if_true]
  rw [hfit]
  have hpred : KNearestNeighbors.predict
      ⟨1, some ⟨X, y, (X.headD []).length, np_unique y⟩⟩ X = .ok (X.map (fun q =>
        most_common_label (((np_argsort (fun j => (X.map (fun t => sqdist q t)).getD j 0)
          (X.map (fun t => sqdist q t)).length).take 1).map (fun j => y.getD j 0)))) :=
    predict_ok ⟨X, y, (X.headD []).length, np_unique y⟩ 1 X harr rfl
  simp only [KNearestNeighbors.score, hy, if_true, hpred]
  have hXnil : X ≠ [] := by
    intro h0; subst h0; simp at hne
  have hylen : ((y.length : ℕ) : ℚ) ≠ 0 := by
    rw [hlen]
    exact_mod_cast fun h => hXnil (List.length_eq_zero.mp h)
  have hcnt : ((y.zip (X.map (fun q =>
      most_common_label (((np_argsort (fun j => (X.map (fun t => sqdist q t)).getD j 0)
        (X.map (fun t => sqdist q t)).length).take 1).map (fun j => y.getD j 0))))).countP
      (fun p => decide (p.2 = some p.1))) = y.length := by
    apply countP_zip_full (fun a b => b = some a)
    · simp [hlen]
    · intro i h1 h2
      have h2' : i < X.length := by simpa using h2
      simp only [List.get_eq_getElem, List.getElem_map]
      have hXi : X[i] = X.get ⟨i, h2'⟩ := rfl
      rw [hXi]
      rw [predict_row_self X y hrect hnd i h2']
      rw [List.getD_eq_getElem y 0 h1]
  rw [hcnt, div_self hylen]

/-- Counterexample to C5 as stated: the training rows `[[0], [0]]` coincide
but carry different labels `0` and `1`; with `n_neighbors = 1` both query
rows receive the label of training row `0`, so `score` on the training data
itself is one half, not `1`. -/
theorem C5_counterexample :
    (KNearestNeighbors.fit ⟨1, none⟩ [[0], [0]] [0, 1]).2 = none ∧
    ((KNearestNeighbors.fit ⟨1, none⟩ [[0], [0]] [0, 1]).1).score [[0], [0]] [0, 1]
      = .ok ((1 : ℚ) / 2) ∧ (1 : ℚ) / 2 ≠ 1 := by
  refine ⟨rfl, ?_, by norm_num⟩
  with_unfolding_all rfl

/-- Witness for the amended C5: a classifier with `n_neighbors = 1` fitted
on the distinct rows `[[0], [7]]` with labels `[3, 4]` scores `1` on its own
training data. -/
theorem C5_witness :
    (check_X_y [[0], [7]] [3, 4] = true ∧ check_classification_targets [3, 4] = true ∧
      ([[0], [7]] : List (List ℚ)).Nodup) ∧
    ((KNearestNeighbors.fit ⟨1, none⟩ [[0], [7]] [3, 4]).1).score [[0], [7]] [3, 4] = .ok 1 :=
  ⟨⟨by decide, by decide, by decide⟩,
   C5_score_one_of_distinct_rows [[0], [7]] [3, 4] (by decide) (by decide) (by decide)⟩

/-! ### Properties of the month ordering and of `sortedUnique` -/

theorem ymLt_trans (a b c : YM) (h1 : ymLt a b = true) (h2 : ymLt b c = true) :
    ymLt a c = true := by
  rcases a with ⟨a1, a2⟩; rcases b with ⟨b1, b2⟩; rcases c with ⟨c1, c2⟩
  simp only [ymLt, decide_eq_true_eq] at h1 h2 ⊢
  omega

theorem ymLt_total (a b : YM) (h1 : ymLt a b = false) (hne : a ≠ b) :
    ymLt b a = true := by
  have hne' : ¬(a.1 = b.1 ∧ a.2 = b.2) := by
    intro hc
    exact hne (Prod.ext hc.1 hc.2)
  rcases a with ⟨a1, a2⟩; rcases b with ⟨b1, b2⟩
  simp only [ymLt, decide_eq_false_iff_not] at h1
  simp only [ymLt, decide_eq_true_eq]
  simp only at hne'
  omega

theorem ymLt_irrefl (a : YM) : ymLt a a = false := by
  rcases a with ⟨a1, a2⟩
  simp only [ymLt, decide_eq_false_iff_not]
  omega

theorem mem_insertYM (v : YM) (l : List YM) (x : YM) :
    x ∈ insertYM v l ↔ x = v ∨ x ∈ l := by
  induction l with
  | nil => simp [insertYM]
  | cons a as ih =>
    by_cases h1 : ymLt v a = true
    · rw [insertYM, if_pos h1]
      exact List.mem_cons
    · rw [insertYM, if_neg h1]
      by_cases h2 : v = a
      · rw [if_pos h2]
        subst h2
        simp only [List.mem_cons]
        tauto
      · rw [if_neg h2]
        simp only [List.mem_cons, ih]
        tauto

theorem insertYM_pairwise (v : YM) (l : List YM)
    (h : l.Pairwise (fun a b => ymLt a b = true)) :
    (insertYM v l).Pairwise (fun a b => ymLt a b = true) := by
  induction l with
  | nil => simp [insertYM]
  | cons a as ih =>
    obtain ⟨ha, has⟩ := List.pairwise_cons.mp h
    by_cases h1 : ymLt v a = true
    · rw [insertYM, if_pos h1]
      refine List.pairwise_cons.mpr ⟨?_, h⟩
      intro b hb
      rcases List.mem_cons.mp hb with rfl | hb'
      · exact h1
      · exact ymLt_trans v a b h1 (ha b hb')
    · rw [insertYM, if_neg h1]
      by_cases h2 : v = a
      · rw [if_pos h2]; exact h
      · rw [if_neg h2]
        refine List.pairwise_cons.mpr ⟨?_, ih has⟩
        intro b hb
        rcases (mem_insertYM v as b).mp hb with rfl | hb'
        · exact ymLt_total _ _ (Bool.eq_false_iff.mpr h1) h2
        · exact ha b hb'

theorem sortedUnique_pairwise (keys : List YM) :
    (sortedUnique keys).Pairwise (fun a b => ymLt a b = true) := by
  have main : ∀ (l acc : List YM), acc.Pairwise (fun a b => ymLt a b = true) →
      (l.foldl (fun acc v => insertYM v acc) acc).Pairwise (fun a b => ymLt a b = true) := by
    intro l
    induction l with
    | nil => exact fun acc h => h
    | cons v vs ih => exact fun acc h => ih _ (insertYM_pairwise v acc h)
  exact main keys [] (by simp)

theorem mem_sortedUnique (keys : List YM) (x : YM) :
    x ∈ sortedUnique keys ↔ x ∈ keys := by
  have main : ∀ (l acc : List YM) (x : YM),
      x ∈ l.foldl (fun acc v => insertYM v acc) acc ↔ x ∈ acc ∨ x ∈ l := by
    intro l
    induction l with
    | nil => simp
    | cons v vs ih =>
      intro acc x
      simp only [List.foldl_cons, ih, mem_insertYM, List.mem_cons]
      tauto
  rw [sortedUnique, main]
  simp

theorem sortedUnique_nodup (keys : List YM) : (sortedUnique keys).Nodup := by
  refine (sortedUnique_pairwise keys).imp ?_
  intro a b hab hEq
  subst hEq
  rw [ymLt_irrefl] at hab
  exact Bool.false_ne_true hab

theorem sortedUnique_length (keys : List YM) :
    (sortedUnique keys).length = keys.dedup.length := by
  have h1 := List.toFinset_card_of_nodup (sortedUnique_nodup keys)
  have h2 := List.toFinset_card_of_nodup (List.nodup_dedup keys)
  have h3 : (sortedUnique keys).toFinset = keys.dedup.toFinset := by
    ext a
    simp only [List.mem_toFinset, mem_sortedUnique, List.mem_dedup]
  rw [← h1, ← h2, h3]

/-! ### `get_loc` and the positional content of folds -/

theorem get_loc_of_nodup_append (pre : List IdxLabel) (l : IdxLabel) (post : List IdxLabel)
    (hnd : (pre ++ l :: post).Nodup) :
    get_loc (pre ++ l :: post) l = .loc pre.length := by
  have hmem : l ∈ pre ++ l :: post := List.mem_append_right _ (List.mem_cons_self _ _)
  have hcount : (pre ++ l :: post).count l = 1 := List.count_eq_one_of_mem hnd hmem
  have hnotpre : l ∉ pre := by
    intro hl
    exact (List.nodup_append.mp hnd).2.2 hl (List.mem_cons_self _ _)
  have hidx : (pre ++ l :: post).indexOf l = pre.length := by
    rw [List.indexOf_append_of_not_mem hnotpre, List.indexOf_cons_self]
    exact Nat.add_zero _
  simp [get_loc, hcount, hidx]

theorem foldSide_spec_aux (m : YM) :
    ∀ (keys : List YM) (labels pre : List IdxLabel),
      (pre ++ labels).Nodup → labels.length = keys.length →
      (monthRows labels keys m).map (get_loc (pre ++ labels))
        = (specPositionsFrom keys m pre.length).map GetLocResult.loc := by
  intro keys
  induction keys with
  | nil =>
    intro labels pre hnd hlen
    have hl : labels = [] := List.length_eq_zero.mp hlen
    subst hl
    simp [monthRows, specPositionsFrom]
  | cons k ks ih =>
    intro labels pre hnd hlen
    cases labels with
    | nil => simp at hlen
    | cons l ls =>
      have hlen' : ls.length = ks.length := by simpa using hlen
      have hassoc : pre ++ l :: ls = (pre ++ [l]) ++ ls := by simp
      have hnd' : ((pre ++ [l]) ++ ls).Nodup := by rw [← hassoc]; exact hnd
      have hlen2 : (pre ++ [l]).length = pre.length + 1 := by simp
      by_cases hk : k = m
      · have hmr : monthRows (l :: ls) (k :: ks) m = l :: monthRows ls ks m := by
          simp [monthRows, hk]
        rw [hmr, List.map_cons, get_loc_of_nodup_append pre l ls hnd]
        simp only [specPositionsFrom, if_pos hk, List.map_cons]
        congr 1
        rw [hassoc, ← hlen2]
        exact ih ls (pre ++ [l]) hnd' hlen'
      · have hmr : monthRows (l :: ls) (k :: ks) m = monthRows ls ks m := by
          simp [monthRows, hk]
        rw [hmr]
        simp only [specPositionsFrom, if_neg hk]
        rw [hassoc, ← hlen2]
        exact ih ls (pre ++ [l]) hnd' hlen'

theorem foldSide_spec (labels : List IdxLabel) (keys : List YM) (m : YM)
    (hnd : labels.Nodup) (hlen : labels.length = keys.length) :
    foldSide labels keys m = (specPositions keys m).map GetLocResult.loc := by
  have h := foldSide_spec_aux m keys labels [] (by simpa using hnd) hlen
  simpa [foldSide, specPositions] using h

/-! ### Reduction of `split` after successful validation -/

theorem splitValidate_timeValues (tc : String) (X : Table) (keys : List YM)
    (hk : splitValidate tc X = .ok keys) :
    ∃ ds, timeValues tc X = some ds ∧ ds.map Date.ym = keys := by
  by_cases htc : tc = "index"
  · rw [splitValidate, if_pos htc] at hk
    cases hidx : X.index with
    | datetime tz ds =>
      simp only [hidx] at hk
      refine ⟨ds, ?_, by injection hk⟩
      rw [timeValues, if_pos htc]
      simp only [hidx]
    | rangeIdx n =>
      simp only [hidx] at hk
      exact absurd hk (by simp)
  · rw [splitValidate, if_neg htc] at hk
    cases hcol : X.col tc with
    | none =>
      simp only [hcol] at hk
      exact absurd hk (by simp)
    | some c =>
      simp only [hcol] at hk
      by_cases hdt : c.dtype = Dtype.datetime64ns
      · rw [if_pos hdt] at hk
        refine ⟨c.dates, ?_, by injection hk⟩
        rw [timeValues, if_neg htc]
        simp only [hcol, hdt]
      · rw [if_neg hdt] at hk
        simp at hk

theorem split_eq_ok (tc : String) (X : Table) (keys : List YM)
    (hk : splitValidate tc X = .ok keys) :
    MonthlySplit.split tc X = .ok ((List.range ((sortedUnique keys).length - 1)).map (fun i =>
      (foldSide X.index.labels keys ((sortedUnique keys).getD i (0, 0)),
       foldSide X.index.labels keys ((sortedUnique keys).getD (i + 1) (0, 0))))) := by
  obtain ⟨ds, htv, hds⟩ := splitValidate_timeValues tc X keys hk
  have hns : MonthlySplit.get_n_splits tc X = some ((keys.dedup.length : ℤ) - 1) := by
    rw [MonthlySplit.get_n_splits, htv]
    simp [hds]
  have hml : (sortedUnique keys).length = keys.dedup.length := sortedUnique_length keys
  have hcond : ((sortedUnique keys).length : ℤ) = ((keys.dedup.length : ℤ) - 1) + 1 := by
    rw [hml]; omega
  have htn : (((keys.dedup.length : ℤ) - 1).toNat) = (sortedUnique keys).length - 1 := by
    rw [hml]; omega
  simp only [MonthlySplit.split, hk, hns, Option.getD_some]
  rw [if_pos hcond, htn]

/-! ### Claim theorems for the splitter -/

/-- Counterexample to C2 as stated: on a table with a duplicated timestamp
(two rows on 2021-01-01, one on 2021-02-01) the single fold's train side is
`[slice 0 2, slice 0 2]` — the `get_loc` results of the duplicated label —
and not the positional indices `[0, 1]` that the claim requires. -/
theorem C2_counterexample :
    MonthlySplit.split "index" dupIndexTable
      = .ok [([.sliceRes 0 2, .sliceRes 0 2], [.loc 2])] ∧
    ([GetLocResult.sliceRes 0 2, GetLocResult.sliceRes 0 2] : List GetLocResult)
      ≠ [GetLocResult.loc 0, GetLocResult.loc 1] :=
  ⟨by rfl, by decide⟩

/-- Claim C2 (amended): for every table whose index values are pairwise
distinct, `split` succeeds with exactly M−1 folds (M the number of distinct
month keys), and fold `i` consists of exactly the positional indices of the
rows carrying the i-th and (i+1)-th distinct month key — the distinct keys
taken in ascending chronological order — with positions listed in the
table's original row order. -/
theorem C2_split_positional (tc : String) (X : Table) (keys : List YM)
    (hk : splitValidate tc X = .ok keys)
    (hnd : X.index.labels.Nodup)
    (hlen : X.index.labels.length = keys.length) :
    ∃ folds, MonthlySplit.split tc X = .ok folds ∧
      folds.length = keys.dedup.length - 1 ∧
      (sortedUnique keys).Pairwise (fun a b => ymLt a b = true) ∧
      (∀ k, k ∈ sortedUnique keys ↔ k ∈ keys) ∧
      (∀ i, i < folds.length →
        folds.getD i ([], []) =
          ((specPositions keys ((sortedUnique keys).getD i (0, 0))).map GetLocResult.loc,
           (specPositions keys ((sortedUnique keys).getD (i + 1) (0, 0))).map GetLocResult.loc)) := by
  refine ⟨_, split_eq_ok tc X keys hk, ?_, sortedUnique_pairwise keys,
    fun k => mem_sortedUnique keys k, ?_⟩
  · simp [sortedUnique_length]
  · intro i hi
    simp only [List.length_map, List.length_range] at hi
    rw [List.getD_eq_getElem _ _ (by simpa using hi)]
    simp only [List.getElem_map, List.getElem_range]
    rw [foldSide_spec _ _ _ hnd hlen, foldSide_spec _ _ _ hnd hlen]

/-- Witness for the amended C2: the three-row table with distinct
timestamps over January and February 2021. -/
theorem C2_witness :
    (splitValidate "index" distinctIndexTable = .ok [(2021, 1), (2021, 1), (2021, 2)] ∧
      distinctIndexTable.index.labels.Nodup ∧
      distinctIndexTable.index.labels.length = [((2021 : ℤ), (1 : ℤ)), (2021, 1), (2021, 2)].length) ∧
    (∃ folds, MonthlySplit.split "index" distinctIndexTable = .ok folds ∧
      folds.length = [((2021 : ℤ), (1 : ℤ)), (2021, 1), (2021, 2)].dedup.length - 1 ∧
      (sortedUnique [((2021 : ℤ), (1 : ℤ)), (2021, 1), (2021, 2)]).Pairwise
        (fun a b => ymLt a b = true) ∧
      (∀ k, k ∈ sortedUnique [((2021 : ℤ), (1 : ℤ)), (2021, 1), (2021, 2)]
        ↔ k ∈ [((2021 : ℤ), (1 : ℤ)), (2021, 1), (2021, 2)]) ∧
      (∀ i, i < folds.length →
        folds.getD i ([], []) =
          ((specPositions [((2021 : ℤ), (1 : ℤ)), (2021, 1), (2021, 2)]
              ((sortedUnique [((2021 : ℤ), (1 : ℤ)), (2021, 1), (2021, 2)]).getD i (0, 0))).map
            GetLocResult.loc,
           (specPositions [((2021 : ℤ), (1 : ℤ)), (2021, 1), (2021, 2)]
              ((sortedUnique [((2021 : ℤ), (1 : ℤ)), (2021, 1), (2021, 2)]).getD (i + 1) (0, 0))).map
            GetLocResult.loc))) :=
  ⟨⟨by rfl, by decide, by rfl⟩,
   C2_split_positional "index" distinctIndexTable [(2021, 1), (2021, 1), (2021, 2)]
     (by rfl) (by decide) (by rfl)⟩

/-- Claim C3: for a table whose rows span exactly N ≥ 1 distinct
`(year, month)` pairs, `get_n_splits` returns N − 1 and `split` yields
exactly N − 1 folds; for a single distinct month, `get_n_splits` returns 0
and `split` yields the empty sequence rather than an error. -/
theorem C3_month_count (tc : String) (X : Table) (keys : List YM)
    (hk : splitValidate tc X = .ok keys) (hne : keys ≠ []) :
    MonthlySplit.get_n_splits tc X = some ((keys.toFinset.card : ℤ) - 1) ∧
    (∃ folds, MonthlySplit.split tc X = .ok folds ∧
      folds.length = keys.toFinset.card - 1) ∧
    (keys.toFinset.card = 1 →
      MonthlySplit.get_n_splits tc X = some 0 ∧
      MonthlySplit.split tc X = .ok []) := by
  obtain ⟨ds, htv, hds⟩ := splitValidate_timeValues tc X keys hk
  have hcard : keys.toFinset.card = keys.dedup.length := List.card_toFinset keys
  have hns : MonthlySplit.get_n_splits tc X = some ((keys.dedup.length : ℤ) - 1) := by
    rw [MonthlySplit.get_n_splits, htv]
    simp [hds]
  refine ⟨by rw [hns, hcard], ⟨_, split_eq_ok tc X keys hk, ?_⟩, ?_⟩
  · simp [sortedUnique_length, hcard]
  · intro h1
    have hdl : keys.dedup.length = 1 := by omega
    constructor
    · rw [hns, hdl]
      norm_num
    · rw [split_eq_ok tc X keys hk]
      have hsl : (sortedUnique keys).length = 1 := by
        rw [sortedUnique_length, hdl]
      rw [hsl]
      rfl

/-- Witness for C3: a two-row table inside one calendar month gives
`get_n_splits = 0` and an empty fold sequence. -/
theorem C3_witness :
    (splitValidate "index" singleMonthTable = .ok [(2021, 1), (2021, 1)] ∧
      ([((2021 : ℤ), (1 : ℤ)), (2021, 1)] : List YM) ≠ []) ∧
    (MonthlySplit.get_n_splits "index" singleMonthTable
        = some ((([((2021 : ℤ), (1 : ℤ)), (2021, 1)] : List YM).toFinset.card : ℤ) - 1) ∧
      (∃ folds, MonthlySplit.split "index" singleMonthTable = .ok folds ∧
        folds.length = ([((2021 : ℤ), (1 : ℤ)), (2021, 1)] : List YM).toFinset.card - 1) ∧
      (([((2021 : ℤ), (1 : ℤ)), (2021, 1)] : List YM).toFinset.card = 1 →
        MonthlySplit.get_n_splits "index" singleMonthTable = some 0 ∧
        MonthlySplit.split "index" singleMonthTable = .ok [])) :=
  ⟨⟨by rfl, by decide⟩,
   C3_month_count "index" singleMonthTable [(2021, 1), (2021, 1)] (by rfl) (by decide)⟩

/-- Claim C7: whenever the configured time source exists but does not hold
genuine datetime values (a non-datetime index, or an existing column of
non-datetime dtype such as plain text), `split` fails with the not-datetime
error, and hence never hands any fold to a consumer. -/
theorem C7_not_chronological (tc : String) (X : Table)
    (hsrc : tc = "index" ∨ ∃ c, X.col tc = some c)
    (htv : timeValues tc X = none) :
    MonthlySplit.split tc X = .error SplitError.notDatetime ∧
    ∀ folds, MonthlySplit.split tc X ≠ .ok folds := by
  have hval : splitValidate tc X = .error .notDatetime := by
    by_cases htc : tc = "index"
    · rw [timeValues, if_pos htc] at htv
      rw [splitValidate, if_pos htc]
      cases hidx : X.index with
      | datetime tz ds =>
        simp only [hidx] at htv
        exact absurd htv (by simp)
      | rangeIdx n => rfl
    · rcases hsrc with h | ⟨c, hc⟩
      · exact absurd h htc
      · rw [timeValues, if_neg htc] at htv
        rw [splitValidate, if_neg htc]
        simp only [hc] at htv ⊢
        cases hdt : c.dtype with
        | datetime64ns =>
          rw [hdt] at htv
          exact absurd htv (by simp)
        | datetime64tz tz =>
          rw [hdt] at htv
          exact absurd htv (by simp)
        | objectDtype => rw [if_neg (by simp)]
        | int64 => rw [if_neg (by simp)]
  have hsp : MonthlySplit.split tc X = .error SplitError.notDatetime := by
    rw [MonthlySplit.split, hval]
  exact ⟨hsp, fun folds h => by rw [hsp] at h; exact absurd h (by simp)⟩

/-- Witness for C7: a table whose configured time column exists but holds
plain text (dtype `object`) makes `split` fail with the not-datetime error. -/
theorem C7_witness :
    (("date" = "index" ∨ ∃ c, textColTable.col "date" = some c) ∧
      timeValues "date" textColTable = none) ∧
    (MonthlySplit.split "date" textColTable = .error SplitError.notDatetime ∧
      ∀ folds, MonthlySplit.split "date" textColTable ≠ .ok folds) :=
  ⟨⟨Or.inr ⟨⟨.objectDtype, []⟩, by rfl⟩, by rfl⟩,
   C7_not_chronological "date" textColTable (Or.inr ⟨⟨.objectDtype, []⟩, by rfl⟩) (by rfl)⟩

/-- Claim C9: the entries yielded by `split` are `get_loc` results of row
labels; for a table with pairwise-distinct index values each side of a fold
is exactly the positional indices of the matching rows, while for the table
with a duplicated timestamp the yielded train entries are slices, not the
plain integer positions `[0, 1]` of the matching rows. -/
theorem C9_get_loc_positions :
    (∀ (labels : List IdxLabel) (keys : List YM) (m : YM),
      labels.Nodup → labels.length = keys.length →
      foldSide labels keys m = (specPositions keys m).map GetLocResult.loc) ∧
    (MonthlySplit.split "index" dupIndexTable
        = .ok [([.sliceRes 0 2, .sliceRes 0 2], [.loc 2])] ∧
      (specPositions [(2021, 1), (2021, 1), (2021, 2)] (2021, 1)).map GetLocResult.loc
        = [.loc 0, .loc 1] ∧
      ([GetLocResult.sliceRes 0 2, GetLocResult.sliceRes 0 2] : List GetLocResult)
        ≠ [GetLocResult.loc 0, GetLocResult.loc 1]) :=
  ⟨fun labels keys m hnd hlen => foldSide_spec labels keys m hnd hlen,
   by rfl, by rfl, by decide⟩

/-- Witness for C9: the distinct-timestamp table's January side evaluates to
the positional indices `[0, 1]` through the first part of the theorem. -/
theorem C9_witness :
    (distinctIndexTable.index.labels.Nodup ∧
      distinctIndexTable.index.labels.length
        = [((2021 : ℤ), (1 : ℤ)), (2021, 1), (2021, 2)].length) ∧
    foldSide distinctIndexTable.index.labels [(2021, 1), (2021, 1), (2021, 2)] (2021, 1)
      = (specPositions [(2021, 1), (2021, 1), (2021, 2)] (2021, 1)).map GetLocResult.loc :=
  ⟨⟨by decide, by rfl⟩,
   C9_get_loc_positions.1 distinctIndexTable.index.labels
     [(2021, 1), (2021, 1), (2021, 2)] (2021, 1) (by decide) (by rfl)⟩

/-- Claim C10: with a named time column, `split` accepts the column only
when its dtype is exactly `datetime64[ns]`: every other dtype — the
timezone-aware `datetime64[ns, tz]` included, as well as `object` (text)
and numeric dtypes — is rejected with the not-datetime error, whereas the
index path accepts any `DatetimeIndex`, timezone-aware included. -/
theorem C10_column_dtype_exact :
    (∀ (X : Table) (c : String) (col : Column), c ≠ "index" → X.col c = some col →
      col.dtype = Dtype.datetime64ns → ∃ folds, MonthlySplit.split c X = .ok folds) ∧
    (∀ (X : Table) (c : String) (col : Column), c ≠ "index" →
      X.col c = some col → col.dtype ≠ Dtype.datetime64ns →
      MonthlySplit.split c X = .error SplitError.notDatetime) ∧
    (∀ (X : Table) (tz : Option String) (ds : List Date), X.index = .datetime tz ds →
      ∃ folds, MonthlySplit.split "index" X = .ok folds) := by
  refine ⟨?_, ?_, ?_⟩
  · intro X c col hc hcol hdt
    have hk : splitValidate c X = .ok (col.dates.map Date.ym) := by
      rw [splitValidate, if_neg hc]
      simp only [hcol, hdt, if_true]
    exact ⟨_, split_eq_ok c X _ hk⟩
  · intro X c col hc hcol hdt
    have hval : splitValidate c X = .error .notDatetime := by
      rw [splitValidate, if_neg hc]
      simp only [hcol]
      rw [if_neg hdt]
    rw [MonthlySplit.split, hval]
  · intro X tz ds hidx
    have hk : splitValidate "index" X = .ok (ds.map Date.ym) := by
      rw [splitValidate, if_pos rfl]
      simp only [hidx]
    exact ⟨_, split_eq_ok "index" X _ hk⟩

/-- Witness for C10: a `datetime64[ns]` column is accepted; the same column
with dtype `datetime64[ns, UTC]` and an `object` (text) column are both
rejected through the any-other-dtype part; and a timezone-aware
`DatetimeIndex` is accepted. -/
theorem C10_witness :
    (("date" ≠ "index" ∧ nsColTable.col "date" = some ⟨.datetime64ns, [⟨2021, 1, 1⟩]⟩ ∧
        (Column.mk .datetime64ns [⟨2021, 1, 1⟩]).dtype = Dtype.datetime64ns) ∧
      ∃ folds, MonthlySplit.split "date" nsColTable = .ok folds) ∧
    (("date" ≠ "index" ∧ tzColTable.col "date" = some ⟨.datetime64tz "UTC", [⟨2021, 1, 1⟩]⟩ ∧
        (Column.mk (.datetime64tz "UTC") [⟨2021, 1, 1⟩]).dtype ≠ Dtype.datetime64ns) ∧
      MonthlySplit.split "date" tzColTable = .error SplitError.notDatetime) ∧
    (("date" ≠ "index" ∧ textColTable.col "date" = some ⟨.objectDtype, []⟩ ∧
        (Column.mk .objectDtype []).dtype ≠ Dtype.datetime64ns) ∧
      MonthlySplit.split "date" textColTable = .error SplitError.notDatetime) ∧
    ((tzIndexTable.index = .datetime (some "UTC") [⟨2021, 1, 1⟩]) ∧
      ∃ folds, MonthlySplit.split "index" tzIndexTable = .ok folds) :=
  ⟨⟨⟨by decide, by rfl, by rfl⟩,
    C10_column_dtype_exact.1 nsColTable "date" ⟨.datetime64ns, [⟨2021, 1, 1⟩]⟩
      (by decide) (by rfl) (by rfl)⟩,
   ⟨⟨by decide, by rfl, by decide⟩,
    C10_column_dtype_exact.2.1 tzColTable "date" ⟨.datetime64tz "UTC", [⟨2021, 1, 1⟩]⟩
      (by decide) (by rfl) (by decide)⟩,
   ⟨⟨by decide, by rfl, by decide⟩,
    C10_column_dtype_exact.2.1 textColTable "date" ⟨.objectDtype, []⟩
      (by decide) (by rfl) (by decide)⟩,
   ⟨by rfl,
    C10_column_dtype_exact.2.2 tzIndexTable (some "UTC") [⟨2021, 1, 1⟩] (by rfl)⟩⟩

end SklearnQuestions
